import Mathlib

/-!
Shallow embedding of `pynapple/process/tuning_curves.py` and proofs about it.

The source computes tuning curves and Skaggs mutual information with numpy
floating point.  The claims under study only concern the exact structure of
the computation (histogram counts, division-by-zero artifacts, NaN/inf
suppression, shapes), so floats are modelled by exact rationals extended with
`inf`, `neginf` and `nan`, with IEEE-754 propagation rules for the operations
the source uses.  External collaborators (the `TsGroup.value_from` aligner and
the time-series containers from `pynapple.core`, which are not part of the
source file) enter as explicit inputs: each group member is given by its key
together with the list of aligned values that `value_from` would return.
-/

/-- Result values of numpy float arithmetic, modelled exactly: a finite
rational, positive or negative infinity, or not-a-number. -/
inductive RVal where
  | fin : ℚ → RVal
  | inf : RVal
  | neginf : RVal
  | nan : RVal
deriving DecidableEq

namespace RVal

/-- IEEE multiplication on extended values (signed zeros are not tracked;
the source never observes them). -/
def mul : RVal → RVal → RVal
  | nan, _ => nan
  | _, nan => nan
  | fin a, fin b => fin (a * b)
  | fin a, inf => if 0 < a then inf else if a < 0 then neginf else nan
  | inf, fin a => if 0 < a then inf else if a < 0 then neginf else nan
  | fin a, neginf => if 0 < a then neginf else if a < 0 then inf else nan
  | neginf, fin a => if 0 < a then neginf else if a < 0 then inf else nan
  | inf, inf => inf
  | inf, neginf => neginf
  | neginf, inf => neginf
  | neginf, neginf => inf

/-- IEEE division on extended values: division of a nonzero finite value by
zero gives a signed infinity, `0/0` gives `nan`. -/
def div : RVal → RVal → RVal
  | nan, _ => nan
  | _, nan => nan
  | fin a, fin b =>
      if b = 0 then (if 0 < a then inf else if a < 0 then neginf else nan)
      else fin (a / b)
  | fin _, inf => fin 0
  | fin _, neginf => fin 0
  | inf, fin b => if 0 ≤ b then inf else neginf
  | neginf, fin b => if 0 ≤ b then neginf else inf
  | inf, inf => nan
  | inf, neginf => nan
  | neginf, inf => nan
  | neginf, neginf => nan

/-- IEEE addition on extended values. -/
def add : RVal → RVal → RVal
  | nan, _ => nan
  | _, nan => nan
  | fin a, fin b => fin (a + b)
  | fin _, inf => inf
  | inf, fin _ => inf
  | fin _, neginf => neginf
  | neginf, fin _ => neginf
  | inf, inf => inf
  | neginf, neginf => neginf
  | inf, neginf => nan
  | neginf, inf => nan

/-- Counterpart of `np.isinf`: true exactly on the two infinities. -/
def isInf : RVal → Bool
  | inf => true
  | neginf => true
  | _ => false

/-- Counterpart of `np.isnan`. -/
def isNaN : RVal → Bool
  | nan => true
  | _ => false

/-- True exactly on finite values. -/
def isFinite : RVal → Bool
  | fin _ => true
  | _ => false

end RVal

/-- Sum of a list of extended values, as `np.sum` over an axis (starting
from zero and folding left; the order is irrelevant for the exact model). -/
def sumR (l : List RVal) : RVal := l.foldl RVal.add (RVal.fin 0)

/-- Counterpart of `np.linspace a b n`: `n` evenly spaced points from `a`
to `b` inclusive. -/
def linspace (a b : ℚ) (n : ℕ) : List ℚ :=
  if n = 0 then []
  else if n = 1 then [a]
  else (List.range n).map (fun (i : ℕ) => a + (b - a) * (i : ℚ) / ((n - 1 : ℕ) : ℚ))

/-- Counterpart of `np.min` on a nonempty value list. -/
def npMin : List ℚ → ℚ
  | [] => 0
  | [x] => x
  | x :: y :: t => min x (npMin (y :: t))

/-- Counterpart of `np.max` on a nonempty value list. -/
def npMax : List ℚ → ℚ
  | [] => 0
  | [x] => x
  | x :: y :: t => max x (npMax (y :: t))

/-- Bin membership tests of `np.histogram` for a list of edges: one
predicate per bin, half-open `[e_i, e_{i+1})` except the last bin which is
closed `[e_{n-2}, e_{n-1}]`. -/
def binPreds : List ℚ → List (ℚ → Bool)
  | a :: b :: rest =>
      (match rest with
       | [] => fun v => decide (a ≤ v) && decide (v ≤ b)
       | _ :: _ => fun v => decide (a ≤ v) && decide (v < b)) :: binPreds (b :: rest)
  | _ => []

/-- Counterpart of `np.histogram values bins` (first component): the count
of values falling in each bin. -/
def histogram (values : List ℚ) (edges : List ℚ) : List ℕ :=
  (binPreds edges).map (fun p => values.countP p)

/-- Bin centers `bins[0:-1] + np.diff(bins)/2`. -/
def centers (bins : List ℚ) : List ℚ :=
  List.zipWith (fun a b => a + (b - a) / 2) bins bins.tail

/-- One-dimensional feature signal: timestamped rational samples plus the
intrinsic sampling rate attribute `.rate`. -/
structure Tsd where
  samples : List (ℚ × ℚ)
  rate : ℚ

/-- Values of the samples, as `feature.values`. -/
def Tsd.values (f : Tsd) : List ℚ := f.samples.map Prod.snd

/-- Modelled from the spec: the `IntervalSet` container of `pynapple.core`
is not part of the source file; per the spec it is an ordered set of
`[start, end)` time intervals. -/
abbrev IntervalSet := List (ℚ × ℚ)

/-- Modelled from the spec: membership of a timestamp in an interval set
(`[start, end)` intervals). -/
def memEp (ep : IntervalSet) (t : ℚ) : Bool :=
  ep.any (fun q => decide (q.1 ≤ t) && decide (t < q.2))

/-- Modelled from the spec: `feature.restrict(ep)` keeps exactly the
samples whose timestamp lies in the interval set. -/
def Tsd.restrict (f : Tsd) (ep : IntervalSet) : Tsd :=
  ⟨f.samples.filter (fun s => memEp ep s.1), f.rate⟩

/-- Bin edges of `compute_1d_tuning_curves` (source lines 41-44): linspace
over the feature's own min/max, or over the caller-supplied bounds. -/
def binEdges1d (feature : Tsd) (nb_bins : ℕ) (minmax : Option (ℚ × ℚ)) : List ℚ :=
  match minmax with
  | none => linspace (npMin feature.values) (npMax feature.values) nb_bins
  | some mm => linspace mm.1 mm.2 nb_bins

/-- Occupancy of `compute_1d_tuning_curves` (source line 49): histogram of
the raw, unrestricted feature values over the edges. -/
def occupancy1d (feature : Tsd) (bins : List ℚ) : List ℕ :=
  histogram feature.values bins

/-- Elementwise `count / occupancy` (source line 53), with IEEE artifacts. -/
def divCounts (count occ : List ℕ) : List RVal :=
  List.zipWith (fun (c o : ℕ) => (RVal.fin (c : ℚ)).div (RVal.fin (o : ℚ))) count occ

/-- Counterpart of `count[np.isnan(count)] = 0.0` (source line 54). -/
def nanFix (l : List RVal) : List RVal :=
  l.map (fun x => if x.isNaN then RVal.fin 0 else x)

/-- One output column of `compute_1d_tuning_curves` (source lines 52-56):
histogram of the member's aligned values, divided by occupancy, NaNs
replaced by zero, then scaled by the feature rate. -/
def tcColumn (occupancy : List ℕ) (bins : List ℚ) (rate : ℚ) (vals : List ℚ) : List RVal :=
  (nanFix (divCounts (histogram vals bins) occupancy)).map (fun x => x.mul (RVal.fin rate))

/-- Output table of `compute_1d_tuning_curves`: index of bin centers and
one column of values per group member, in order. -/
structure TuningCurves1D (κ : Type) where
  index : List ℚ
  columns : List (κ × List RVal)

/-- Embedding of `compute_1d_tuning_curves`.  `group_value` pairs each
group key with the aligned values `group.value_from(feature, ep)[k].values`
produced by the external aligner; `ep` enters the computation only through
that external call, so the body does not consume it. -/
def compute_1d_tuning_curves {κ : Type} (group_value : List (κ × List ℚ))
    (feature : Tsd) (_ep : IntervalSet) (nb_bins : ℕ)
    (minmax : Option (ℚ × ℚ)) : TuningCurves1D κ :=
  { index := centers (binEdges1d feature nb_bins minmax)
  , columns := group_value.map (fun kv =>
      (kv.1, tcColumn (occupancy1d feature (binEdges1d feature nb_bins minmax))
        (binEdges1d feature nb_bins minmax) feature.rate kv.2)) }

/-- Two-channel (or more) feature frame: one value list per channel and
the sampling rate attribute; `feature.shape[1]` is the number of channels. -/
structure TsdFrame where
  cols : List (List ℚ)
  rate : ℚ

/-- Bin edges of channel `i` in `compute_2d_tuning_curves` (source lines
100-103): with bounds, `linspace(minmax[i+i%2], minmax[i+1+i%2], nb_bins)`;
without, linspace over the channel's own min and max. -/
def bins2d (feature : TsdFrame) (nb_bins : ℕ) (minmax : Option (List ℚ)) (i : ℕ) : List ℚ :=
  match minmax with
  | none => linspace (npMin (feature.cols.getD i [])) (npMax (feature.cols.getD i [])) nb_bins
  | some mm => linspace (mm.getD (i + i % 2) 0) (mm.getD (i + 1 + i % 2) 0) nb_bins

/-- Counterpart of `np.histogram2d xs ys [ex, ey]` (first component):
counts of the pairs falling in each 2-D bin, one row per x-bin. -/
def histogram2d (xs ys : List ℚ) (ex ey : List ℚ) : List (List ℕ) :=
  (binPreds ex).map (fun px =>
    (binPreds ey).map (fun py => (xs.zip ys).countP (fun q => px q.1 && py q.2)))

/-- One member's output array in `compute_2d_tuning_curves` (source lines
113-120): 2-D histogram of the aligned value pairs, divided elementwise by
occupancy (the NaN fill being commented out in the source) and scaled by
the feature rate. -/
def tc2dMember (occ : List (List ℕ)) (ex ey : List ℚ) (rate : ℚ)
    (vx vy : List ℚ) : List (List RVal) :=
  List.zipWith (fun crow orow =>
      List.zipWith (fun (c o : ℕ) =>
        ((RVal.fin (c : ℚ)).div (RVal.fin (o : ℚ))).mul (RVal.fin rate)) crow orow)
    (histogram2d vx vy ex ey) occ

/-- Body of `compute_2d_tuning_curves` after the dimension check: the map
from each key to its 2-D array, and the two lists of bin centers. -/
def compute_2d_core {κ : Type} (group_value : List (κ × (List ℚ × List ℚ)))
    (feature : TsdFrame) (_ep : IntervalSet) (nb_bins : ℕ)
    (minmax : Option (List ℚ)) : List (κ × List (List RVal)) × List (List ℚ) :=
  (group_value.map (fun kv =>
     (kv.1, tc2dMember
       (histogram2d (feature.cols.getD 0 []) (feature.cols.getD 1 [])
         (bins2d feature nb_bins minmax 0) (bins2d feature nb_bins minmax 1))
       (bins2d feature nb_bins minmax 0) (bins2d feature nb_bins minmax 1)
       feature.rate kv.2.1 kv.2.2)),
   [centers (bins2d feature nb_bins minmax 0), centers (bins2d feature nb_bins minmax 1)])

/-- Embedding of `compute_2d_tuning_curves`: raises (returns an error)
exactly when the feature does not have two channels (source lines 91-92),
otherwise computes the per-member arrays and bin centers.  `group_value`
pairs each key with its two channels of aligned values. -/
def compute_2d_tuning_curves {κ : Type} (group_value : List (κ × (List ℚ × List ℚ)))
    (feature : TsdFrame) (ep : IntervalSet) (nb_bins : ℕ)
    (minmax : Option (List ℚ)) :
    Except String (List (κ × List (List RVal)) × List (List ℚ)) :=
  if feature.cols.length ≠ 2 then Except.error "Variable is not 2 dimensional."
  else Except.ok (compute_2d_core group_value feature ep nb_bins minmax)

/-- Bin edges of `compute_mutual_information_1d` (source lines 163-167):
`tc.shape[0] + 1` edges over the feature's min/max or the given bounds. -/
def miBins (tcRows : List (List ℚ)) (feature : Tsd) (minmax : Option (ℚ × ℚ)) : List ℚ :=
  binEdges1d feature (tcRows.length + 1) minmax

/-- Occupancy counts of `compute_mutual_information_1d` (source line 172):
histogram of the feature restricted to `ep`. -/
def miOccCounts (feature : Tsd) (ep : IntervalSet) (bins : List ℚ) : List ℕ :=
  histogram (Tsd.restrict feature ep).values bins

/-- Normalized occupancy `occupancy / occupancy.sum()` (source line 173). -/
def miOccP (feature : Tsd) (ep : IntervalSet) (bins : List ℚ) : List RVal :=
  (miOccCounts feature ep bins).map (fun (c : ℕ) =>
    (RVal.fin (c : ℚ)).div (RVal.fin (((miOccCounts feature ep bins).sum : ℕ) : ℚ)))

/-- Column `j` of the tuning-curve matrix `fx`. -/
def colOf (rows : List (List ℚ)) (j : ℕ) : List ℚ := rows.map (fun r => r.getD j 0)

/-- Mean rate of member `j`: `fr = np.sum(fx * occupancy, 0)` (source 176). -/
def miMeanRate (rows : List (List ℚ)) (occP : List RVal) (j : ℕ) : RVal :=
  sumR (List.zipWith (fun x o => (RVal.fin x).mul o) (colOf rows j) occP)

/-- Counterpart of `np.log2` on extended values; `log2pos` supplies the
(real, here abstracted) logarithm on strictly positive rationals. -/
def npLog2 (log2pos : ℚ → ℚ) : RVal → RVal
  | RVal.nan => RVal.nan
  | RVal.inf => RVal.inf
  | RVal.neginf => RVal.nan
  | RVal.fin q => if 0 < q then RVal.fin (log2pos q) else if q = 0 then RVal.neginf else RVal.nan

/-- Counterpart of `logfx[np.isinf(logfx)] = 0.0` (source line 181): the
two infinities are replaced by zero; NaN is left in place. -/
def clearInf (x : RVal) : RVal := if x.isInf then RVal.fin 0 else x

/-- Column `j` of `logfx` after the infinity fill (source lines 177-181). -/
def miLogCol (log2pos : ℚ → ℚ) (rows : List (List ℚ)) (occP : List RVal) (j : ℕ) : List RVal :=
  ((colOf rows j).map (fun x =>
    npLog2 log2pos ((RVal.fin x).div (miMeanRate rows occP j)))).map clearInf

/-- `SI[j] = np.sum(occupancy * fx * logfx, 0)[j]` (source line 182). -/
def miSI (log2pos : ℚ → ℚ) (rows : List (List ℚ)) (occP : List RVal) (j : ℕ) : RVal :=
  sumR (List.zipWith RVal.mul
    (List.zipWith (fun o x => o.mul (RVal.fin x)) occP (colOf rows j))
    (miLogCol log2pos rows occP j))

/-- Embedding of `compute_mutual_information_1d`: returns the pairing of
each tuning-curve column key with its information statistic, in bits per
second when `bitssecond` is true and further divided by the member's mean
rate otherwise (source lines 184-190). -/
def compute_mutual_information_1d {κ : Type} (log2pos : ℚ → ℚ) (tcKeys : List κ)
    (tcRows : List (List ℚ)) (feature : Tsd) (ep : IntervalSet)
    (minmax : Option (ℚ × ℚ)) (bitssecond : Bool) : List (κ × RVal) :=
  tcKeys.zip ((List.range tcKeys.length).map (fun j =>
    if bitssecond then
      miSI log2pos tcRows (miOccP feature ep (miBins tcRows feature minmax)) j
    else
      (miSI log2pos tcRows (miOccP feature ep (miBins tcRows feature minmax)) j).div
        (miMeanRate tcRows (miOccP feature ep (miBins tcRows feature minmax)) j)))

/-! ### Basic lemmas about the numpy counterparts -/

theorem length_binPreds : ∀ es : List ℚ, (binPreds es).length = es.length - 1
  | [] => rfl
  | [_] => rfl
  | _ :: b :: rest => by
      have ih := length_binPreds (b :: rest)
      show (binPreds (b :: rest)).length + 1 = _
      simp only [List.length_cons] at ih ⊢
      omega

theorem length_histogram (values edges : List ℚ) :
    (histogram values edges).length = edges.length - 1 := by
  simp [histogram, length_binPreds]

theorem length_linspace (a b : ℚ) (n : ℕ) : (linspace a b n).length = n := by
  unfold linspace
  split
  · simp_all
  · split
    · simp_all
    · simp

theorem length_binEdges1d (feature : Tsd) (nb_bins : ℕ) (minmax : Option (ℚ × ℚ)) :
    (binEdges1d feature nb_bins minmax).length = nb_bins := by
  cases minmax <;> simp [binEdges1d, length_linspace]

theorem getD_linspace (a b : ℚ) (n i : ℕ) (h2 : 2 ≤ n) (hi : i < n) :
    (linspace a b n).getD i 0 = a + (b - a) * (i : ℚ) / ((n - 1 : ℕ) : ℚ) := by
  have hn0 : ¬ n = 0 := by omega
  have hn1 : ¬ n = 1 := by omega
  have hl : i < (linspace a b n).length := by rw [length_linspace]; exact hi
  rw [List.getD_eq_getElem _ _ hl]
  simp only [linspace, if_neg hn0, if_neg hn1]
  rw [List.getElem_map, List.getElem_range]

theorem linspace_first (a b : ℚ) (n : ℕ) (h2 : 2 ≤ n) :
    (linspace a b n).getD 0 0 = a := by
  rw [getD_linspace a b n 0 h2 (by omega)]
  simp

theorem linspace_last (a b : ℚ) (n : ℕ) (h2 : 2 ≤ n) :
    (linspace a b n).getD (n - 1) 0 = b := by
  rw [getD_linspace a b n (n - 1) h2 (by omega)]
  have hz : ((n - 1 : ℕ) : ℚ) ≠ 0 := Nat.cast_ne_zero.mpr (by omega)
  rw [mul_div_assoc, div_self hz, mul_one]
  ring

/-! ### The value of one cell of a 1-D tuning-curve column -/

theorem length_divCounts (count occ : List ℕ) :
    (divCounts count occ).length = min count.length occ.length :=
  List.length_zipWith _ _ _

theorem tcColumn_length (occupancy : List ℕ) (bins : List ℚ) (rate : ℚ) (vals : List ℚ) :
    (tcColumn occupancy bins rate vals).length = min (binPreds bins).length occupancy.length := by
  simp [tcColumn, nanFix, length_divCounts, length_histogram, length_binPreds]

theorem tcColumn_getD_pos (occupancy : List ℕ) (bins : List ℚ) (rate : ℚ) (vals : List ℚ)
    (i : ℕ) (hi1 : i < (binPreds bins).length) (hi2 : i < occupancy.length)
    (ho : occupancy.getD i 0 ≠ 0) :
    (tcColumn occupancy bins rate vals).getD i RVal.nan =
      RVal.fin ((((histogram vals bins).getD i 0 : ℕ) : ℚ)
        / (((occupancy.getD i 0 : ℕ)) : ℚ) * rate) := by
  have hc : i < (histogram vals bins).length := by
    rw [length_histogram, ← length_binPreds]; exact hi1
  have hz : i < (divCounts (histogram vals bins) occupancy).length := by
    rw [length_divCounts]; exact lt_min hc hi2
  have hn : i < (nanFix (divCounts (histogram vals bins) occupancy)).length := by
    simpa [nanFix] using hz
  have hm : i < (tcColumn occupancy bins rate vals).length := by
    rw [tcColumn_length]; exact lt_min hi1 hi2
  rw [List.getD_eq_getElem _ _ hm, List.getD_eq_getElem _ _ hc, List.getD_eq_getElem _ _ hi2]
  rw [List.getD_eq_getElem _ _ hi2] at ho
  unfold tcColumn nanFix divCounts
  rw [List.getElem_map, List.getElem_map, List.getElem_zipWith]
  have hoQ : ((occupancy[i] : ℕ) : ℚ) ≠ 0 := by exact_mod_cast ho
  simp [RVal.div, RVal.mul, RVal.isNaN, hoQ]

theorem tcColumn_getD_zero (occupancy : List ℕ) (bins : List ℚ) (rate : ℚ) (vals : List ℚ)
    (i : ℕ) (hi1 : i < (binPreds bins).length) (hi2 : i < occupancy.length)
    (ho : occupancy.getD i 0 = 0) (hcnt : (histogram vals bins).getD i 0 = 0) :
    (tcColumn occupancy bins rate vals).getD i RVal.nan = RVal.fin 0 := by
  have hc : i < (histogram vals bins).length := by
    rw [length_histogram, ← length_binPreds]; exact hi1
  have hm : i < (tcColumn occupancy bins rate vals).length := by
    rw [tcColumn_length]; exact lt_min hi1 hi2
  rw [List.getD_eq_getElem _ _ hm]
  rw [List.getD_eq_getElem _ _ hi2] at ho
  rw [List.getD_eq_getElem _ _ hc] at hcnt
  unfold tcColumn nanFix divCounts
  rw [List.getElem_map, List.getElem_map, List.getElem_zipWith]
  simp [RVal.div, RVal.mul, RVal.isNaN, ho, hcnt]

theorem histogram_zero_of_sub {vals vs : List ℚ} (bins : List ℚ)
    (hsub : ∀ v ∈ vals, v ∈ vs) (i : ℕ)
    (h : (histogram vs bins).getD i 0 = 0) :
    (histogram vals bins).getD i 0 = 0 := by
  by_cases hi : i < (binPreds bins).length
  · have h1 : i < (histogram vs bins).length := by
      rw [length_histogram, ← length_binPreds]; exact hi
    have h2 : i < (histogram vals bins).length := by
      rw [length_histogram, ← length_binPreds]; exact hi
    rw [List.getD_eq_getElem _ _ h1] at h
    rw [List.getD_eq_getElem _ _ h2]
    unfold histogram at h ⊢
    rw [List.getElem_map] at h ⊢
    rw [List.countP_eq_zero] at h ⊢
    exact fun v hv => h v (hsub v hv)
  · have h2 : (histogram vals bins).length ≤ i := by
      rw [length_histogram, ← length_binPreds]; omega
    rw [List.getD_eq_getElem?_getD, List.getElem?_eq_none h2, Option.getD_none]

theorem compute_1d_col {κ : Type} (group_value : List (κ × List ℚ)) (feature : Tsd)
    (ep : IntervalSet) (nb_bins : ℕ) (minmax : Option (ℚ × ℚ)) (k : ℕ)
    (hk : k < group_value.length) :
    ((compute_1d_tuning_curves group_value feature ep nb_bins minmax).columns.map Prod.snd).getD k []
      = tcColumn (occupancy1d feature (binEdges1d feature nb_bins minmax))
          (binEdges1d feature nb_bins minmax) feature.rate
          ((group_value.map Prod.snd).getD k []) := by
  have h1 : k < ((compute_1d_tuning_curves group_value feature ep nb_bins
      minmax).columns.map Prod.snd).length := by
    simpa [compute_1d_tuning_curves] using hk
  have h2 : k < (group_value.map Prod.snd).length := by simpa using hk
  rw [List.getD_eq_getElem _ _ h1, List.getD_eq_getElem _ _ h2]
  simp [compute_1d_tuning_curves, List.getElem_map]

/-- C1: in `compute_1d_tuning_curves`, the cell of group member `k` at bin
`i` equals the member's histogram count of aligned values over the bin
edges, divided by the occupancy count of that bin, multiplied by
`feature.rate` (the division being the exact rational one, whose
`0 / 0 = 0` convention coincides with the NaN-fill of zero-occupancy bins
when the aligned values are drawn from the feature's samples). -/
theorem compute_1d_cell_eq {κ : Type} (group_value : List (κ × List ℚ)) (feature : Tsd)
    (ep : IntervalSet) (nb_bins : ℕ) (minmax : Option (ℚ × ℚ)) (k i : ℕ)
    (hk : k < group_value.length)
    (hi : i < (occupancy1d feature (binEdges1d feature nb_bins minmax)).length)
    (hsub : ∀ v ∈ (group_value.map Prod.snd).getD k [], v ∈ feature.values) :
    (((compute_1d_tuning_curves group_value feature ep nb_bins
        minmax).columns.map Prod.snd).getD k []).getD i RVal.nan
      = RVal.fin
          ((((histogram ((group_value.map Prod.snd).getD k [])
                (binEdges1d feature nb_bins minmax)).getD i 0 : ℕ) : ℚ)
            / (((occupancy1d feature (binEdges1d feature nb_bins minmax)).getD i 0 : ℕ) : ℚ)
            * feature.rate) := by
  rw [compute_1d_col group_value feature ep nb_bins minmax k hk]
  have hi1 : i < (binPreds (binEdges1d feature nb_bins minmax)).length := by
    rw [occupancy1d, length_histogram, ← length_binPreds] at hi; exact hi
  by_cases ho : (occupancy1d feature (binEdges1d feature nb_bins minmax)).getD i 0 = 0
  · have hcnt := histogram_zero_of_sub (binEdges1d feature nb_bins minmax) hsub i ho
    rw [tcColumn_getD_zero _ _ _ _ i hi1 hi ho hcnt, ho, hcnt]
    simp
  · rw [tcColumn_getD_pos _ _ _ _ i hi1 hi ho]

unseal Nat.gcd Rat.add Rat.sub Rat.mul Rat.inv in
theorem compute_1d_cell_eq_witness :
    ((0 < ([((0 : ℕ), [(0 : ℚ)])] : List (ℕ × List ℚ)).length)
      ∧ (0 < (occupancy1d ⟨[(0, 0), (1, 1)], 1⟩
          (binEdges1d ⟨[(0, 0), (1, 1)], 1⟩ 3 none)).length)
      ∧ (∀ v ∈ (([((0 : ℕ), [(0 : ℚ)])] : List (ℕ × List ℚ)).map Prod.snd).getD 0 [],
          v ∈ Tsd.values ⟨[(0, 0), (1, 1)], 1⟩))
    ∧ (((compute_1d_tuning_curves [((0 : ℕ), [(0 : ℚ)])] ⟨[(0, 0), (1, 1)], 1⟩
          [(0, 2)] 3 none).columns.map Prod.snd).getD 0 []).getD 0 RVal.nan
        = RVal.fin
            ((((histogram ((([((0 : ℕ), [(0 : ℚ)])] : List (ℕ × List ℚ)).map Prod.snd).getD 0 [])
                  (binEdges1d ⟨[(0, 0), (1, 1)], 1⟩ 3 none)).getD 0 0 : ℕ) : ℚ)
              / (((occupancy1d ⟨[(0, 0), (1, 1)], 1⟩
                    (binEdges1d ⟨[(0, 0), (1, 1)], 1⟩ 3 none)).getD 0 0 : ℕ) : ℚ)
              * (1 : ℚ)) :=
  ⟨⟨by decide, by decide, by decide⟩,
   compute_1d_cell_eq [((0 : ℕ), [(0 : ℚ)])] ⟨[(0, 0), (1, 1)], 1⟩ [(0, 2)] 3 none 0 0
     (by decide) (by decide) (by decide)⟩

/-- C2: in `compute_1d_tuning_curves`, a bin whose occupancy count is zero
yields the output value exactly 0 for every group member (whose aligned
values come from the feature's samples), the `0/0` NaN artifact being
replaced by zero; the computation is total, so nothing is raised. -/
theorem compute_1d_zero_occupancy {κ : Type} (group_value : List (κ × List ℚ)) (feature : Tsd)
    (ep : IntervalSet) (nb_bins : ℕ) (minmax : Option (ℚ × ℚ)) (k i : ℕ)
    (hk : k < group_value.length)
    (hi : i < (occupancy1d feature (binEdges1d feature nb_bins minmax)).length)
    (hsub : ∀ v ∈ (group_value.map Prod.snd).getD k [], v ∈ feature.values)
    (hocc : (occupancy1d feature (binEdges1d feature nb_bins minmax)).getD i 0 = 0) :
    (((compute_1d_tuning_curves group_value feature ep nb_bins
        minmax).columns.map Prod.snd).getD k []).getD i RVal.nan = RVal.fin 0 := by
  rw [compute_1d_col group_value feature ep nb_bins minmax k hk]
  have hi1 : i < (binPreds (binEdges1d feature nb_bins minmax)).length := by
    rw [occupancy1d, length_histogram, ← length_binPreds] at hi; exact hi
  exact tcColumn_getD_zero _ _ _ _ i hi1 hi hocc
    (histogram_zero_of_sub (binEdges1d feature nb_bins minmax) hsub i hocc)

unseal Nat.gcd Rat.add Rat.sub Rat.mul Rat.inv in
theorem compute_1d_zero_occupancy_witness :
    ((0 < ([((0 : ℕ), [(0 : ℚ)])] : List (ℕ × List ℚ)).length)
      ∧ (1 < (occupancy1d ⟨[(0, 0), (1, 0)], 1⟩
          (binEdges1d ⟨[(0, 0), (1, 0)], 1⟩ 3 (some (0, 1)))).length)
      ∧ (∀ v ∈ (([((0 : ℕ), [(0 : ℚ)])] : List (ℕ × List ℚ)).map Prod.snd).getD 0 [],
          v ∈ Tsd.values ⟨[(0, 0), (1, 0)], 1⟩)
      ∧ (occupancy1d ⟨[(0, 0), (1, 0)], 1⟩
          (binEdges1d ⟨[(0, 0), (1, 0)], 1⟩ 3 (some (0, 1)))).getD 1 0 = 0)
    ∧ (((compute_1d_tuning_curves [((0 : ℕ), [(0 : ℚ)])] ⟨[(0, 0), (1, 0)], 1⟩
          [(0, 2)] 3 (some (0, 1))).columns.map Prod.snd).getD 0 []).getD 1 RVal.nan
        = RVal.fin 0 :=
  ⟨⟨by decide, by decide, by decide, by decide⟩,
   compute_1d_zero_occupancy [((0 : ℕ), [(0 : ℚ)])] ⟨[(0, 0), (1, 0)], 1⟩ [(0, 2)] 3
     (some (0, 1)) 0 1 (by decide) (by decide) (by decide) (by decide)⟩

/-- C4: for `nb_bins ≥ 2` and a non-empty group, the 1-D tuning-curve
table has exactly `nb_bins - 1` rows, indexed by the midpoints of
consecutive bin edges, with one column per group key in the group's
iteration order. -/
theorem compute_1d_shape {κ : Type} (group_value : List (κ × List ℚ)) (feature : Tsd)
    (ep : IntervalSet) (nb_bins : ℕ) (minmax : Option (ℚ × ℚ))
    (hnb : 2 ≤ nb_bins) (hg : group_value ≠ []) :
    (compute_1d_tuning_curves group_value feature ep nb_bins minmax).index.length = nb_bins - 1
    ∧ (∀ i, i < nb_bins - 1 →
        (compute_1d_tuning_curves group_value feature ep nb_bins minmax).index.getD i 0
          = ((binEdges1d feature nb_bins minmax).getD i 0
              + (binEdges1d feature nb_bins minmax).getD (i + 1) 0) / 2)
    ∧ (compute_1d_tuning_curves group_value feature ep nb_bins minmax).columns.map Prod.fst
        = group_value.map Prod.fst := by
  have hb : (binEdges1d feature nb_bins minmax).length = nb_bins :=
    length_binEdges1d feature nb_bins minmax
  refine ⟨?_, ?_, ?_⟩
  · show (centers (binEdges1d feature nb_bins minmax)).length = nb_bins - 1
    simp only [centers, List.length_zipWith, List.length_tail, hb]
    omega
  · intro i hi
    have h1 : i < (binEdges1d feature nb_bins minmax).length := by omega
    have h1' : i + 1 < (binEdges1d feature nb_bins minmax).length := by omega
    have h2 : i < (binEdges1d feature nb_bins minmax).tail.length := by
      rw [List.length_tail]; omega
    have hz : i < (centers (binEdges1d feature nb_bins minmax)).length := by
      simp only [centers, List.length_zipWith, List.length_tail, hb]; omega
    show (centers (binEdges1d feature nb_bins minmax)).getD i 0 = _
    rw [List.getD_eq_getElem _ _ hz]
    unfold centers
    rw [List.getElem_zipWith, List.getElem_tail,
      List.getD_eq_getElem _ _ h1, List.getD_eq_getElem _ _ h1']
    ring
  · show (group_value.map _).map Prod.fst = _
    rw [List.map_map]
    rfl

unseal Nat.gcd Rat.add Rat.sub Rat.mul Rat.inv in
theorem compute_1d_shape_witness :
    ((2 ≤ 3) ∧ ([((0 : ℕ), [(0 : ℚ)]), (1, [])] : List (ℕ × List ℚ)) ≠ [])
    ∧ ((compute_1d_tuning_curves [((0 : ℕ), [(0 : ℚ)]), (1, [])] ⟨[(0, 0), (1, 1)], 1⟩
          [(0, 2)] 3 none).index.length = 3 - 1
      ∧ (∀ i, i < 3 - 1 →
          (compute_1d_tuning_curves [((0 : ℕ), [(0 : ℚ)]), (1, [])] ⟨[(0, 0), (1, 1)], 1⟩
            [(0, 2)] 3 none).index.getD i 0
            = ((binEdges1d ⟨[(0, 0), (1, 1)], 1⟩ 3 none).getD i 0
                + (binEdges1d ⟨[(0, 0), (1, 1)], 1⟩ 3 none).getD (i + 1) 0) / 2)
      ∧ (compute_1d_tuning_curves [((0 : ℕ), [(0 : ℚ)]), (1, [])] ⟨[(0, 0), (1, 1)], 1⟩
          [(0, 2)] 3 none).columns.map Prod.fst
          = ([((0 : ℕ), [(0 : ℚ)]), (1, [])] : List (ℕ × List ℚ)).map Prod.fst) :=
  ⟨⟨by decide, by decide⟩,
   compute_1d_shape [((0 : ℕ), [(0 : ℚ)]), (1, [])] ⟨[(0, 0), (1, 1)], 1⟩ [(0, 2)] 3 none
     (by decide) (by decide)⟩

/-- C5: `compute_2d_tuning_curves` fails with the invalid-dimension error
exactly when the feature does not have two channels; with two channels it
returns the computed result, so the dimension check is the only structural
failure condition. -/
theorem compute_2d_error_iff {κ : Type} (group_value : List (κ × (List ℚ × List ℚ)))
    (feature : TsdFrame) (ep : IntervalSet) (nb_bins : ℕ) (minmax : Option (List ℚ)) :
    ((∃ e, compute_2d_tuning_curves group_value feature ep nb_bins minmax = Except.error e)
        ↔ feature.cols.length ≠ 2)
    ∧ (feature.cols.length = 2 →
        compute_2d_tuning_curves group_value feature ep nb_bins minmax
          = Except.ok (compute_2d_core group_value feature ep nb_bins minmax)) := by
  constructor
  · constructor
    · rintro ⟨e, he⟩ h2
      rw [compute_2d_tuning_curves, if_neg (by simp [h2])] at he
      exact Except.noConfusion he
    · intro h2
      exact ⟨"Variable is not 2 dimensional.", by rw [compute_2d_tuning_curves, if_pos h2]⟩
  · intro h2
    rw [compute_2d_tuning_curves, if_neg (by simp [h2])]

theorem mem_zipWith_exists {α β γ : Type} {f : α → β → γ} :
    ∀ {l1 : List α} {l2 : List β} {x : γ}, x ∈ List.zipWith f l1 l2 →
      ∃ a b, a ∈ l1 ∧ b ∈ l2 ∧ x = f a b
  | [], _, _, h => by simp at h
  | _ :: _, [], _, h => by simp at h
  | a :: l1, b :: l2, x, h => by
      rcases List.mem_cons.mp h with h | h
      · exact ⟨a, b, by simp, by simp, h⟩
      · obtain ⟨a', b', h1, h2, h3⟩ := mem_zipWith_exists h
        exact ⟨a', b', by simp [h1], by simp [h2], h3⟩

theorem length_bins2d (feature : TsdFrame) (nb_bins : ℕ) (minmax : Option (List ℚ)) (i : ℕ) :
    (bins2d feature nb_bins minmax i).length = nb_bins := by
  cases minmax <;> simp [bins2d, length_linspace]

/-- C6: with caller-supplied bounds `[minX, maxX, minY, maxY]` the first
channel's `nb_bins` edges in `compute_2d_tuning_curves` run exactly from
`minX` to `maxX` and the second channel's from `minY` to `maxY`; with no
bounds, each channel's edges run from that channel's own observed minimum
to its maximum. -/
theorem bins2d_bounds (feature : TsdFrame) (nb_bins : ℕ) (mm : List ℚ) (hnb : 2 ≤ nb_bins) :
    ((bins2d feature nb_bins (some mm) 0).getD 0 0 = mm.getD 0 0
      ∧ (bins2d feature nb_bins (some mm) 0).getD (nb_bins - 1) 0 = mm.getD 1 0)
    ∧ ((bins2d feature nb_bins (some mm) 1).getD 0 0 = mm.getD 2 0
      ∧ (bins2d feature nb_bins (some mm) 1).getD (nb_bins - 1) 0 = mm.getD 3 0)
    ∧ (∀ i, (bins2d feature nb_bins none i).getD 0 0 = npMin (feature.cols.getD i [])
      ∧ (bins2d feature nb_bins none i).getD (nb_bins - 1) 0 = npMax (feature.cols.getD i [])) :=
  ⟨⟨linspace_first _ _ _ hnb, linspace_last _ _ _ hnb⟩,
   ⟨linspace_first _ _ _ hnb, linspace_last _ _ _ hnb⟩,
   fun _ => ⟨linspace_first _ _ _ hnb, linspace_last _ _ _ hnb⟩⟩

unseal Nat.gcd Rat.add Rat.sub Rat.mul Rat.inv in
theorem bins2d_bounds_witness :
    (2 ≤ 3)
    ∧ (((bins2d ⟨[[0, 1], [0, 1]], 1⟩ 3 (some [5, 7, 11, 13]) 0).getD 0 0
          = ([(5 : ℚ), 7, 11, 13]).getD 0 0
        ∧ (bins2d ⟨[[0, 1], [0, 1]], 1⟩ 3 (some [5, 7, 11, 13]) 0).getD (3 - 1) 0
          = ([(5 : ℚ), 7, 11, 13]).getD 1 0)
      ∧ ((bins2d ⟨[[0, 1], [0, 1]], 1⟩ 3 (some [5, 7, 11, 13]) 1).getD 0 0
          = ([(5 : ℚ), 7, 11, 13]).getD 2 0
        ∧ (bins2d ⟨[[0, 1], [0, 1]], 1⟩ 3 (some [5, 7, 11, 13]) 1).getD (3 - 1) 0
          = ([(5 : ℚ), 7, 11, 13]).getD 3 0)
      ∧ (∀ i, (bins2d ⟨[[0, 1], [0, 1]], 1⟩ 3 none i).getD 0 0
          = npMin ((⟨[[0, 1], [0, 1]], 1⟩ : TsdFrame).cols.getD i [])
        ∧ (bins2d ⟨[[0, 1], [0, 1]], 1⟩ 3 none i).getD (3 - 1) 0
          = npMax ((⟨[[0, 1], [0, 1]], 1⟩ : TsdFrame).cols.getD i []))) :=
  ⟨by decide, bins2d_bounds ⟨[[0, 1], [0, 1]], 1⟩ 3 [5, 7, 11, 13] (by decide)⟩

theorem length_centers (bins : List ℚ) : (centers bins).length = bins.length - 1 := by
  simp only [centers, List.length_zipWith, List.length_tail]
  omega

theorem length_histogram2d (xs ys ex ey : List ℚ) :
    (histogram2d xs ys ex ey).length = ex.length - 1 := by
  simp [histogram2d, length_binPreds]

theorem histogram2d_row_length (xs ys ex ey : List ℚ) :
    ∀ r ∈ histogram2d xs ys ex ey, r.length = ey.length - 1 := by
  intro r hr
  simp only [histogram2d, List.mem_map] at hr
  obtain ⟨px, _, rfl⟩ := hr
  simp [length_binPreds]

theorem length_tc2dMember (occ : List (List ℕ)) (ex ey : List ℚ) (rate : ℚ)
    (vx vy : List ℚ) :
    (tc2dMember occ ex ey rate vx vy).length = min (ex.length - 1) occ.length := by
  simp [tc2dMember, List.length_zipWith, length_histogram2d]

/-- C7: with a two-channel feature and `nb_bins ≥ 2`,
`compute_2d_tuning_curves` returns (besides no error) one 2-D array per
group key in order, each of shape `(nb_bins-1) × (nb_bins-1)`, together
with two lists of bin centers of length `nb_bins - 1`, one per channel. -/
theorem compute_2d_shape {κ : Type} (group_value : List (κ × (List ℚ × List ℚ)))
    (feature : TsdFrame) (ep : IntervalSet) (nb_bins : ℕ) (minmax : Option (List ℚ))
    (hnb : 2 ≤ nb_bins) (h2 : feature.cols.length = 2) :
    compute_2d_tuning_curves group_value feature ep nb_bins minmax
        = Except.ok (compute_2d_core group_value feature ep nb_bins minmax)
    ∧ (compute_2d_core group_value feature ep nb_bins minmax).1.map Prod.fst
        = group_value.map Prod.fst
    ∧ (∀ kv ∈ (compute_2d_core group_value feature ep nb_bins minmax).1,
        kv.2.length = nb_bins - 1 ∧ ∀ row ∈ kv.2, row.length = nb_bins - 1)
    ∧ (compute_2d_core group_value feature ep nb_bins minmax).2.length = 2
    ∧ (∀ c ∈ (compute_2d_core group_value feature ep nb_bins minmax).2,
        c.length = nb_bins - 1) := by
  refine ⟨by rw [compute_2d_tuning_curves, if_neg (by simp [h2])], ?_, ?_, rfl, ?_⟩
  · show (group_value.map _).map Prod.fst = _
    rw [List.map_map]
    rfl
  · intro kv hkv
    simp only [compute_2d_core, List.mem_map] at hkv
    obtain ⟨a, _, rfl⟩ := hkv
    constructor
    · rw [length_tc2dMember, length_histogram2d, length_bins2d]
      omega
    · intro row hrow
      obtain ⟨crow, orow, hc, ho, rfl⟩ := mem_zipWith_exists hrow
      rw [List.length_zipWith,
        histogram2d_row_length _ _ _ _ crow hc,
        histogram2d_row_length _ _ _ _ orow ho,
        length_bins2d]
      omega
  · intro c hc
    simp only [compute_2d_core, List.mem_cons, List.not_mem_nil, or_false] at hc
    rcases hc with rfl | rfl <;> rw [length_centers, length_bins2d]

unseal Nat.gcd Rat.add Rat.sub Rat.mul Rat.inv in
theorem compute_2d_shape_witness :
    ((2 ≤ 3) ∧ (⟨[[0, 1], [0, 1]], 1⟩ : TsdFrame).cols.length = 2)
    ∧ (compute_2d_tuning_curves [((0 : ℕ), ([(0 : ℚ)], [(0 : ℚ)]))] ⟨[[0, 1], [0, 1]], 1⟩
          [(0, 2)] 3 none
        = Except.ok (compute_2d_core [((0 : ℕ), ([(0 : ℚ)], [(0 : ℚ)]))]
            ⟨[[0, 1], [0, 1]], 1⟩ [(0, 2)] 3 none)
      ∧ (compute_2d_core [((0 : ℕ), ([(0 : ℚ)], [(0 : ℚ)]))] ⟨[[0, 1], [0, 1]], 1⟩
          [(0, 2)] 3 none).1.map Prod.fst
          = ([((0 : ℕ), ([(0 : ℚ)], [(0 : ℚ)]))] : List (ℕ × (List ℚ × List ℚ))).map Prod.fst
      ∧ (∀ kv ∈ (compute_2d_core [((0 : ℕ), ([(0 : ℚ)], [(0 : ℚ)]))] ⟨[[0, 1], [0, 1]], 1⟩
          [(0, 2)] 3 none).1,
          kv.2.length = 3 - 1 ∧ ∀ row ∈ kv.2, row.length = 3 - 1)
      ∧ (compute_2d_core [((0 : ℕ), ([(0 : ℚ)], [(0 : ℚ)]))] ⟨[[0, 1], [0, 1]], 1⟩
          [(0, 2)] 3 none).2.length = 2
      ∧ (∀ c ∈ (compute_2d_core [((0 : ℕ), ([(0 : ℚ)], [(0 : ℚ)]))] ⟨[[0, 1], [0, 1]], 1⟩
          [(0, 2)] 3 none).2, c.length = 3 - 1)) :=
  ⟨⟨by decide, by decide⟩,
   compute_2d_shape [((0 : ℕ), ([(0 : ℚ)], [(0 : ℚ)]))] ⟨[[0, 1], [0, 1]], 1⟩ [(0, 2)] 3 none
     (by decide) (by decide)⟩

/-! ### The value of one cell of a 2-D tuning-curve array -/

theorem histogram2d_getD (xs ys ex ey : List ℚ) (i j : ℕ)
    (hi : i < (binPreds ex).length) (hj : j < (binPreds ey).length) :
    ((histogram2d xs ys ex ey).getD i []).getD j 0
      = (xs.zip ys).countP (fun q =>
          (binPreds ex).getD i (fun _ => false) q.1
            && (binPreds ey).getD j (fun _ => false) q.2) := by
  have h1 : i < (histogram2d xs ys ex ey).length := by
    rw [length_histogram2d, ← length_binPreds]; exact hi
  rw [List.getD_eq_getElem _ _ h1]
  unfold histogram2d
  rw [List.getElem_map]
  have h2 : j < ((binPreds ey).map (fun py => (xs.zip ys).countP
      (fun q => (binPreds ex)[i] q.1 && py q.2))).length := by
    simpa using hj
  rw [List.getD_eq_getElem _ _ h2, List.getElem_map,
    List.getD_eq_getElem _ _ hi, List.getD_eq_getElem _ _ hj]

theorem tc2dMember_getD (occ : List (List ℕ)) (ex ey : List ℚ) (rate : ℚ)
    (vx vy : List ℚ) (i j : ℕ)
    (hi1 : i < (binPreds ex).length) (hi2 : i < occ.length)
    (hj1 : j < (binPreds ey).length) (hj2 : j < (occ.getD i []).length) :
    ((tc2dMember occ ex ey rate vx vy).getD i []).getD j (RVal.fin 0)
      = ((RVal.fin ((((histogram2d vx vy ex ey).getD i []).getD j 0 : ℕ) : ℚ)).div
          (RVal.fin (((occ.getD i []).getD j 0 : ℕ) : ℚ))).mul (RVal.fin rate) := by
  have hh1 : i < (histogram2d vx vy ex ey).length := by
    rw [length_histogram2d, ← length_binPreds]; exact hi1
  have hz : i < (tc2dMember occ ex ey rate vx vy).length := by
    rw [length_tc2dMember, ← length_binPreds]; omega
  rw [List.getD_eq_getElem _ _ hz]
  unfold tc2dMember
  rw [List.getElem_zipWith]
  have hrow : ((histogram2d vx vy ex ey)[i]).length = (binPreds ey).length := by
    rw [histogram2d_row_length vx vy ex ey _ (List.getElem_mem hh1), length_binPreds]
  have hjz : j < (List.zipWith (fun (c o : ℕ) =>
      ((RVal.fin (c : ℚ)).div (RVal.fin (o : ℚ))).mul (RVal.fin rate))
      ((histogram2d vx vy ex ey)[i]) (occ[i])).length := by
    rw [List.length_zipWith, hrow]
    rw [List.getD_eq_getElem _ _ hi2] at hj2
    omega
  rw [List.getD_eq_getElem _ _ hjz, List.getElem_zipWith]
  rw [List.getD_eq_getElem _ _ hh1, List.getD_eq_getElem _ _ hi2]
  have hj2' : j < ((histogram2d vx vy ex ey)[i]).length := by rw [hrow]; exact hj1
  rw [List.getD_eq_getElem _ _ hj2']
  rw [List.getD_eq_getElem _ _ hi2] at hj2
  rw [List.getD_eq_getElem _ _ hj2]

theorem compute_2d_col {κ : Type} (group_value : List (κ × (List ℚ × List ℚ)))
    (feature : TsdFrame) (ep : IntervalSet) (nb_bins : ℕ) (minmax : Option (List ℚ))
    (k : ℕ) (hk : k < group_value.length) :
    ((compute_2d_core group_value feature ep nb_bins minmax).1.map Prod.snd).getD k []
      = tc2dMember
          (histogram2d (feature.cols.getD 0 []) (feature.cols.getD 1 [])
            (bins2d feature nb_bins minmax 0) (bins2d feature nb_bins minmax 1))
          (bins2d feature nb_bins minmax 0) (bins2d feature nb_bins minmax 1)
          feature.rate
          ((group_value.map Prod.snd).getD k ([], [])).1
          ((group_value.map Prod.snd).getD k ([], [])).2 := by
  have h1 : k < ((compute_2d_core group_value feature ep nb_bins
      minmax).1.map Prod.snd).length := by
    simpa [compute_2d_core] using hk
  have h2 : k < (group_value.map Prod.snd).length := by simpa using hk
  rw [List.getD_eq_getElem _ _ h1, List.getD_eq_getElem _ _ h2]
  simp [compute_2d_core, List.getElem_map]

/-- C8: in `compute_2d_tuning_curves` the zero-occupancy fill-to-zero step
is commented out, so a bin whose 2-D occupancy count is zero yields the
NaN artifact of `0/0` in every member's output array (the member's aligned
value pairs being drawn from the feature's sample pairs), not 0. -/
theorem compute_2d_zero_occupancy_nan {κ : Type} (group_value : List (κ × (List ℚ × List ℚ)))
    (feature : TsdFrame) (ep : IntervalSet) (nb_bins : ℕ) (minmax : Option (List ℚ))
    (k i j : ℕ) (hk : k < group_value.length)
    (hi : i < (histogram2d (feature.cols.getD 0 []) (feature.cols.getD 1 [])
        (bins2d feature nb_bins minmax 0) (bins2d feature nb_bins minmax 1)).length)
    (hj : j < ((histogram2d (feature.cols.getD 0 []) (feature.cols.getD 1 [])
        (bins2d feature nb_bins minmax 0) (bins2d feature nb_bins minmax 1)).getD i []).length)
    (hsub : ∀ q ∈ ((group_value.map Prod.snd).getD k ([], [])).1.zip
        ((group_value.map Prod.snd).getD k ([], [])).2,
        q ∈ (feature.cols.getD 0 []).zip (feature.cols.getD 1 []))
    (hocc : ((histogram2d (feature.cols.getD 0 []) (feature.cols.getD 1 [])
        (bins2d feature nb_bins minmax 0) (bins2d feature nb_bins minmax 1)).getD i []).getD j 0
        = 0) :
    ((((compute_2d_core group_value feature ep nb_bins minmax).1.map Prod.snd).getD k
        []).getD i []).getD j (RVal.fin 0) = RVal.nan := by
  rw [compute_2d_col group_value feature ep nb_bins minmax k hk]
  have hi1 : i < (binPreds (bins2d feature nb_bins minmax 0)).length := by
    rw [length_binPreds, ← length_histogram2d (feature.cols.getD 0 [])
      (feature.cols.getD 1 []) _ (bins2d feature nb_bins minmax 1)]
    exact hi
  have hrow : ((histogram2d (feature.cols.getD 0 []) (feature.cols.getD 1 [])
      (bins2d feature nb_bins minmax 0) (bins2d feature nb_bins minmax 1)).getD i []).length
      = (binPreds (bins2d feature nb_bins minmax 1)).length := by
    rw [List.getD_eq_getElem _ _ hi]
    rw [histogram2d_row_length _ _ _ _ _ (List.getElem_mem hi), length_binPreds]
  have hj1 : j < (binPreds (bins2d feature nb_bins minmax 1)).length := by
    rw [← hrow]; exact hj
  rw [tc2dMember_getD _ _ _ _ _ _ i j hi1 hi hj1 hj]
  rw [hocc]
  have hcnt : ((histogram2d ((group_value.map Prod.snd).getD k ([], [])).1
      ((group_value.map Prod.snd).getD k ([], [])).2
      (bins2d feature nb_bins minmax 0) (bins2d feature nb_bins minmax 1)).getD i []).getD j 0
      = 0 := by
    rw [histogram2d_getD _ _ _ _ i j hi1 hj1] at hocc ⊢
    rw [List.countP_eq_zero] at hocc ⊢
    exact fun q hq => hocc q (hsub q hq)
  rw [hcnt]
  simp [RVal.div, RVal.mul]

unseal Nat.gcd Rat.add Rat.sub Rat.mul Rat.inv in
theorem compute_2d_zero_occupancy_nan_witness :
    ((0 < ([((0 : ℕ), ([(0 : ℚ)], [(0 : ℚ)]))] : List (ℕ × (List ℚ × List ℚ))).length)
      ∧ (0 < (histogram2d ((⟨[[0, 1], [0, 1]], 1⟩ : TsdFrame).cols.getD 0 [])
            ((⟨[[0, 1], [0, 1]], 1⟩ : TsdFrame).cols.getD 1 [])
            (bins2d ⟨[[0, 1], [0, 1]], 1⟩ 3 none 0)
            (bins2d ⟨[[0, 1], [0, 1]], 1⟩ 3 none 1)).length)
      ∧ (1 < ((histogram2d ((⟨[[0, 1], [0, 1]], 1⟩ : TsdFrame).cols.getD 0 [])
            ((⟨[[0, 1], [0, 1]], 1⟩ : TsdFrame).cols.getD 1 [])
            (bins2d ⟨[[0, 1], [0, 1]], 1⟩ 3 none 0)
            (bins2d ⟨[[0, 1], [0, 1]], 1⟩ 3 none 1)).getD 0 []).length)
      ∧ (((histogram2d ((⟨[[0, 1], [0, 1]], 1⟩ : TsdFrame).cols.getD 0 [])
            ((⟨[[0, 1], [0, 1]], 1⟩ : TsdFrame).cols.getD 1 [])
            (bins2d ⟨[[0, 1], [0, 1]], 1⟩ 3 none 0)
            (bins2d ⟨[[0, 1], [0, 1]], 1⟩ 3 none 1)).getD 0 []).getD 1 0 = 0))
    ∧ ((((compute_2d_core [((0 : ℕ), ([(0 : ℚ)], [(0 : ℚ)]))] ⟨[[0, 1], [0, 1]], 1⟩
        [(0, 2)] 3 none).1.map Prod.snd).getD 0 []).getD 0 []).getD 1 (RVal.fin 0)
        = RVal.nan :=
  ⟨⟨by decide, by decide, by decide, by decide⟩,
   compute_2d_zero_occupancy_nan [((0 : ℕ), ([(0 : ℚ)], [(0 : ℚ)]))] ⟨[[0, 1], [0, 1]], 1⟩
     [(0, 2)] 3 none 0 0 1 (by decide) (by decide) (by decide) (by decide) (by decide)⟩

unseal Nat.gcd Rat.add Rat.sub Rat.mul Rat.inv in
theorem compute_2d_error_iff_witness :
    ((⟨[[0], [0], [0]], 1⟩ : TsdFrame).cols.length ≠ 2
      ∧ (∃ e, compute_2d_tuning_curves ([] : List (ℕ × (List ℚ × List ℚ)))
          ⟨[[0], [0], [0]], 1⟩ [] 3 none = Except.error e))
    ∧ ((⟨[[0], [0]], 1⟩ : TsdFrame).cols.length = 2
      ∧ compute_2d_tuning_curves ([] : List (ℕ × (List ℚ × List ℚ)))
          ⟨[[0], [0]], 1⟩ [] 3 none
          = Except.ok (compute_2d_core ([] : List (ℕ × (List ℚ × List ℚ)))
              ⟨[[0], [0]], 1⟩ [] 3 none)) :=
  ⟨⟨by decide,
    (compute_2d_error_iff ([] : List (ℕ × (List ℚ × List ℚ)))
      ⟨[[0], [0], [0]], 1⟩ [] 3 none).1.mpr (by decide)⟩,
   ⟨by decide,
    (compute_2d_error_iff ([] : List (ℕ × (List ℚ × List ℚ)))
      ⟨[[0], [0]], 1⟩ [] 3 none).2 (by decide)⟩⟩

/-! ### Values of the mutual-information table -/

theorem compute_mi_value {κ : Type} (log2pos : ℚ → ℚ) (tcKeys : List κ)
    (tcRows : List (List ℚ)) (feature : Tsd) (ep : IntervalSet)
    (minmax : Option (ℚ × ℚ)) (bitssecond : Bool) (j : ℕ) (hj : j < tcKeys.length) :
    ((compute_mutual_information_1d log2pos tcKeys tcRows feature ep minmax
        bitssecond).map Prod.snd).getD j (RVal.fin 0)
      = (if bitssecond then
          miSI log2pos tcRows (miOccP feature ep (miBins tcRows feature minmax)) j
        else
          (miSI log2pos tcRows (miOccP feature ep (miBins tcRows feature minmax)) j).div
            (miMeanRate tcRows (miOccP feature ep (miBins tcRows feature minmax)) j)) := by
  unfold compute_mutual_information_1d
  rw [List.map_snd_zip _ _ (by simp)]
  have hl : j < ((List.range tcKeys.length).map (fun j =>
      if bitssecond then
        miSI log2pos tcRows (miOccP feature ep (miBins tcRows feature minmax)) j
      else
        (miSI log2pos tcRows (miOccP feature ep (miBins tcRows feature minmax)) j).div
          (miMeanRate tcRows (miOccP feature ep (miBins tcRows feature minmax)) j))).length := by
    simpa using hj
  rw [List.getD_eq_getElem _ _ hl, List.getElem_map, List.getElem_range]

/-- C9: for every member whose mean rate is the strictly positive finite
value `r`, the information statistic returned with `bitssecond = false`
equals the one returned with `bitssecond = true` divided by that member's
mean rate. -/
theorem compute_mi_bits_per_event_div {κ : Type} (log2pos : ℚ → ℚ) (tcKeys : List κ)
    (tcRows : List (List ℚ)) (feature : Tsd) (ep : IntervalSet)
    (minmax : Option (ℚ × ℚ)) (j : ℕ) (r : ℚ) (hj : j < tcKeys.length)
    (hfr : miMeanRate tcRows (miOccP feature ep (miBins tcRows feature minmax)) j
        = RVal.fin r)
    (hr : 0 < r) :
    ((compute_mutual_information_1d log2pos tcKeys tcRows feature ep minmax
        false).map Prod.snd).getD j (RVal.fin 0)
      = (((compute_mutual_information_1d log2pos tcKeys tcRows feature ep minmax
          true).map Prod.snd).getD j (RVal.fin 0)).div
          (miMeanRate tcRows (miOccP feature ep (miBins tcRows feature minmax)) j) := by
  rw [compute_mi_value log2pos tcKeys tcRows feature ep minmax false j hj,
    compute_mi_value log2pos tcKeys tcRows feature ep minmax true j hj]
  simp

unseal Nat.gcd Rat.add Rat.sub Rat.mul Rat.inv in
theorem compute_mi_bits_per_event_div_witness :
    ((0 < ([(0 : ℕ)] : List ℕ).length)
      ∧ miMeanRate [[1], [1]] (miOccP ⟨[(0, 0), (1, 1)], 1⟩ [(0, 2)]
          (miBins [[1], [1]] ⟨[(0, 0), (1, 1)], 1⟩ none)) 0 = RVal.fin 1
      ∧ (0 : ℚ) < 1)
    ∧ ((compute_mutual_information_1d (fun _ => 0) [(0 : ℕ)] [[1], [1]]
          ⟨[(0, 0), (1, 1)], 1⟩ [(0, 2)] none false).map Prod.snd).getD 0 (RVal.fin 0)
        = (((compute_mutual_information_1d (fun _ => 0) [(0 : ℕ)] [[1], [1]]
            ⟨[(0, 0), (1, 1)], 1⟩ [(0, 2)] none true).map Prod.snd).getD 0 (RVal.fin 0)).div
            (miMeanRate [[1], [1]] (miOccP ⟨[(0, 0), (1, 1)], 1⟩ [(0, 2)]
              (miBins [[1], [1]] ⟨[(0, 0), (1, 1)], 1⟩ none)) 0) :=
  ⟨⟨by decide, by decide, by decide⟩,
   compute_mi_bits_per_event_div (fun _ => 0) [(0 : ℕ)] [[1], [1]] ⟨[(0, 0), (1, 1)], 1⟩
     [(0, 2)] none 0 1 (by decide) (by decide) (by decide)⟩

theorem RVal.mul_nan (x : RVal) : x.mul RVal.nan = RVal.nan := by cases x <;> rfl

theorem RVal.nan_div (x : RVal) : RVal.nan.div x = RVal.nan := by cases x <;> rfl

theorem foldl_add_nan : ∀ l : List RVal, l.foldl RVal.add RVal.nan = RVal.nan
  | [] => rfl
  | x :: t => by
      rw [List.foldl_cons, show RVal.nan.add x = RVal.nan from by cases x <;> rfl,
        foldl_add_nan t]

theorem sumR_all_nan (l : List RVal) (hne : l ≠ []) (h : ∀ x ∈ l, x = RVal.nan) :
    sumR l = RVal.nan := by
  cases l with
  | nil => exact absurd rfl hne
  | cons x t =>
      have hx : x = RVal.nan := h x (by simp)
      subst hx
      unfold sumR
      rw [List.foldl_cons, show (RVal.fin 0).add RVal.nan = RVal.nan from rfl,
        foldl_add_nan t]

theorem foldl_add_mem : ∀ (l : List RVal) (acc : RVal),
    (acc = RVal.fin 0 ∨ acc = RVal.nan) →
    (∀ e ∈ l, e = RVal.fin 0 ∨ e = RVal.nan) →
    (l.foldl RVal.add acc = RVal.fin 0 ∨ l.foldl RVal.add acc = RVal.nan)
  | [], acc, hacc, _ => by simpa using hacc
  | e :: t, acc, hacc, h => by
      have he := h e (by simp)
      have hstep : acc.add e = RVal.fin 0 ∨ acc.add e = RVal.nan := by
        rcases hacc with rfl | rfl <;> rcases he with rfl | rfl
        · left; show RVal.fin (0 + 0) = RVal.fin 0; norm_num
        · right; rfl
        · right; rfl
        · right; rfl
      rw [List.foldl_cons]
      exact foldl_add_mem t (acc.add e) hstep (fun x hx => h x (by simp [hx]))

theorem length_miOccP (feature : Tsd) (ep : IntervalSet) (bins : List ℚ) :
    (miOccP feature ep bins).length = bins.length - 1 := by
  simp [miOccP, miOccCounts, length_histogram]

theorem length_colOf (rows : List (List ℚ)) (j : ℕ) : (colOf rows j).length = rows.length := by
  simp [colOf]

theorem length_miLogCol (log2pos : ℚ → ℚ) (rows : List (List ℚ)) (occP : List RVal) (j : ℕ) :
    (miLogCol log2pos rows occP j).length = rows.length := by
  simp [miLogCol, colOf]

theorem meanRate_zero_col (rows : List (List ℚ)) (occP : List RVal) (j : ℕ)
    (hcol : ∀ row ∈ rows, row.getD j 0 = 0) :
    miMeanRate rows occP j = RVal.fin 0 ∨ miMeanRate rows occP j = RVal.nan := by
  unfold miMeanRate sumR
  apply foldl_add_mem _ _ (Or.inl rfl)
  intro e he
  obtain ⟨x, o, hx, _, rfl⟩ := mem_zipWith_exists he
  have hx0 : x = 0 := by
    simp only [colOf, List.mem_map] at hx
    obtain ⟨row, hrow, rfl⟩ := hx
    exact hcol row hrow
  subst hx0
  cases o with
  | fin p => left; show RVal.fin (0 * p) = RVal.fin 0; rw [zero_mul]
  | inf => right; simp [RVal.mul]
  | neginf => right; simp [RVal.mul]
  | nan => right; rfl

theorem div_fin_zero_degenerate (M : RVal) (h : M = RVal.fin 0 ∨ M = RVal.nan) :
    (RVal.fin 0).div M = RVal.nan := by
  rcases h with rfl | rfl
  · simp [RVal.div]
  · rfl

theorem miLogCol_no_inf (log2pos : ℚ → ℚ) (rows : List (List ℚ)) (occP : List RVal) (j : ℕ) :
    ∀ y ∈ miLogCol log2pos rows occP j, y.isInf = false := by
  intro y hy
  unfold miLogCol at hy
  rw [List.mem_map] at hy
  obtain ⟨x, _, rfl⟩ := hy
  cases x <;> simp [clearInf, RVal.isInf]

theorem miLogCol_allzero (log2pos : ℚ → ℚ) (rows : List (List ℚ)) (occP : List RVal) (j : ℕ)
    (hcol : ∀ row ∈ rows, row.getD j 0 = 0) :
    ∀ y ∈ miLogCol log2pos rows occP j, y = RVal.nan := by
  intro y hy
  unfold miLogCol at hy
  rw [List.map_map, List.mem_map] at hy
  obtain ⟨x, hx, rfl⟩ := hy
  have hx0 : x = 0 := by
    simp only [colOf, List.mem_map] at hx
    obtain ⟨row, hrow, rfl⟩ := hx
    exact hcol row hrow
  subst hx0
  show clearInf (npLog2 log2pos ((RVal.fin 0).div (miMeanRate rows occP j))) = RVal.nan
  rw [div_fin_zero_degenerate _ (meanRate_zero_col rows occP j hcol)]
  rfl

/-- C3 (amended): `compute_mutual_information_1d` replaces only the
infinite values of the log2 ratio with 0 before the weighted sum; the NaN
values are left in place, so for a tuning-curve column that is all zeros
the returned statistic is NaN, not 0. -/
theorem compute_mi_allzero_nan {κ : Type} (log2pos : ℚ → ℚ) (tcKeys : List κ)
    (tcRows : List (List ℚ)) (feature : Tsd) (ep : IntervalSet)
    (minmax : Option (ℚ × ℚ)) (bitssecond : Bool) (j : ℕ)
    (hrows : tcRows ≠ []) (hj : j < tcKeys.length)
    (hcol : ∀ row ∈ tcRows, row.getD j 0 = 0) :
    (∀ y ∈ miLogCol log2pos tcRows (miOccP feature ep (miBins tcRows feature minmax)) j,
        y.isInf = false)
    ∧ ((compute_mutual_information_1d log2pos tcKeys tcRows feature ep minmax
        bitssecond).map Prod.snd).getD j (RVal.fin 0) = RVal.nan := by
  refine ⟨miLogCol_no_inf _ _ _ _, ?_⟩
  rw [compute_mi_value log2pos tcKeys tcRows feature ep minmax bitssecond j hj]
  have hSI : miSI log2pos tcRows (miOccP feature ep (miBins tcRows feature minmax)) j
      = RVal.nan := by
    unfold miSI
    apply sumR_all_nan
    · apply List.ne_nil_of_length_pos
      rw [List.length_zipWith, List.length_zipWith, length_colOf, length_miLogCol,
        length_miOccP]
      have hb : (miBins tcRows feature minmax).length = tcRows.length + 1 := by
        unfold miBins; rw [length_binEdges1d]
      rw [hb]
      have := List.length_pos.mpr hrows
      omega
    · intro x hx
      obtain ⟨a, L, _, hL, rfl⟩ := mem_zipWith_exists hx
      rw [miLogCol_allzero log2pos tcRows
        (miOccP feature ep (miBins tcRows feature minmax)) j hcol L hL]
      exact RVal.mul_nan a
  cases bitssecond <;> simp [hSI, RVal.nan_div]

-- C3 counterexample: for the all-zero tuning-curve column over a concrete
-- feature, `compute_mutual_information_1d` returns NaN, not the claimed 0:
-- the `0/0` NaN passes through `np.isinf` untouched.
unseal Nat.gcd Rat.add Rat.sub Rat.mul Rat.inv in
theorem compute_mi_allzero_counterexample :
    compute_mutual_information_1d (fun _ => 0) [(0 : ℕ)] [[0], [0]]
        ⟨[(0, 0), (1, 1)], 1⟩ [(0, 2)] none false = [(0, RVal.nan)]
    ∧ RVal.nan ≠ RVal.fin 0 :=
  ⟨by decide, by decide⟩

unseal Nat.gcd Rat.add Rat.sub Rat.mul Rat.inv in
theorem compute_mi_allzero_nan_witness :
    (([[(0 : ℚ)], [0]] : List (List ℚ)) ≠ [] ∧ 0 < ([(0 : ℕ)] : List ℕ).length
      ∧ (∀ row ∈ ([[(0 : ℚ)], [0]] : List (List ℚ)), row.getD 0 0 = 0))
    ∧ ((∀ y ∈ miLogCol (fun _ => 0) [[0], [0]]
          (miOccP ⟨[(0, 0), (1, 1)], 1⟩ [(0, 2)]
            (miBins [[0], [0]] ⟨[(0, 0), (1, 1)], 1⟩ none)) 0,
          y.isInf = false)
      ∧ ((compute_mutual_information_1d (fun _ => 0) [(0 : ℕ)] [[0], [0]]
          ⟨[(0, 0), (1, 1)], 1⟩ [(0, 2)] none true).map Prod.snd).getD 0 (RVal.fin 0)
          = RVal.nan) :=
  ⟨⟨by decide, by decide, by decide⟩,
   compute_mi_allzero_nan (fun _ => 0) [(0 : ℕ)] [[0], [0]] ⟨[(0, 0), (1, 1)], 1⟩
     [(0, 2)] none true 0 (by decide) (by decide) (by decide)⟩

/-! ### Occupancy restriction mismatch between the 1-D and MI paths -/

theorem npMin_le : ∀ (l : List ℚ), ∀ v ∈ l, npMin l ≤ v
  | [], v, hv => by simp at hv
  | [x], v, hv => by
      rw [List.mem_singleton] at hv
      rw [hv]
      exact le_refl x
  | x :: y :: t, v, hv => by
      rcases List.mem_cons.mp hv with rfl | hv
      · exact min_le_left _ _
      · exact le_trans (min_le_right x (npMin (y :: t))) (npMin_le (y :: t) v hv)

theorem le_npMax : ∀ (l : List ℚ), ∀ v ∈ l, v ≤ npMax l
  | [], v, hv => by simp at hv
  | [x], v, hv => by
      rw [List.mem_singleton] at hv
      rw [hv]
      exact le_refl x
  | x :: y :: t, v, hv => by
      rcases List.mem_cons.mp hv with rfl | hv
      · exact le_max_left _ _
      · exact le_trans (le_npMax (y :: t) v hv) (le_max_right x (npMax (y :: t)))

theorem binPreds_cover : ∀ (es : List ℚ) (v : ℚ), 2 ≤ es.length →
    es.getD 0 0 ≤ v → v ≤ es.getD (es.length - 1) 0 →
    ∃ p ∈ binPreds es, p v = true
  | [], _, h, _, _ => by simp at h
  | [_], _, h, _, _ => by simp at h
  | [a, b], v, _, hlo, hhi => by
      refine ⟨_, List.mem_cons_self _ _, ?_⟩
      rw [List.getD_cons_zero] at hlo
      have hb : v ≤ b := by simpa using hhi
      simp [hlo, hb]
  | a :: b :: c :: t, v, _, hlo, hhi => by
      rw [List.getD_cons_zero] at hlo
      by_cases hv : v < b
      · exact ⟨_, List.mem_cons_self _ _, by simp [hlo, hv]⟩
      · have hb : b ≤ v := le_of_not_lt hv
        have hhi' : v ≤ (b :: c :: t).getD ((b :: c :: t).length - 1) 0 := by
          simpa using hhi
        obtain ⟨p, hp, hpv⟩ := binPreds_cover (b :: c :: t) v (by simp)
          (by rw [List.getD_cons_zero]; exact hb) hhi'
        exact ⟨p, List.mem_cons_of_mem _ hp, hpv⟩

theorem countP_filter_split {α : Type} (p q : α → Bool) : ∀ l : List α,
    l.countP p = (l.filter q).countP p + (l.filter (fun a => !q a)).countP p
  | [] => rfl
  | x :: t => by
      have ih := countP_filter_split p q t
      cases hq : q x <;>
        simp [List.filter_cons, List.countP_cons, hq] <;>
        omega

/-- C10: the occupancy that `compute_1d_tuning_curves` divides by is the
histogram of all of the feature's samples, ignoring `ep`, while
`compute_mutual_information_1d` histograms the feature restricted to `ep`;
whenever some sample's timestamp lies outside `ep` (with the default
auto-inferred bounds and `nb_bins ≥ 2`), the two occupancy vectors differ. -/
theorem occupancy_restriction_mismatch (feature : Tsd) (ep : IntervalSet) (nb_bins : ℕ)
    (hnb : 2 ≤ nb_bins)
    (hout : ∃ s ∈ feature.samples, memEp ep s.1 = false) :
    occupancy1d feature (binEdges1d feature nb_bins none)
        = histogram feature.values (binEdges1d feature nb_bins none)
    ∧ miOccCounts feature ep (binEdges1d feature nb_bins none)
        = histogram (Tsd.restrict feature ep).values (binEdges1d feature nb_bins none)
    ∧ occupancy1d feature (binEdges1d feature nb_bins none)
        ≠ miOccCounts feature ep (binEdges1d feature nb_bins none) := by
  refine ⟨rfl, rfl, ?_⟩
  intro heq
  obtain ⟨s, hs, hsep⟩ := hout
  have hv : s.2 ∈ feature.values := List.mem_map_of_mem Prod.snd hs
  have hlen : (binEdges1d feature nb_bins none).length = nb_bins :=
    length_binEdges1d feature nb_bins none
  have hlo : (binEdges1d feature nb_bins none).getD 0 0 ≤ s.2 := by
    show (linspace (npMin feature.values) (npMax feature.values) nb_bins).getD 0 0 ≤ s.2
    rw [linspace_first _ _ _ hnb]
    exact npMin_le feature.values s.2 hv
  have hhi : s.2 ≤ (binEdges1d feature nb_bins none).getD
      ((binEdges1d feature nb_bins none).length - 1) 0 := by
    rw [hlen]
    show s.2 ≤ (linspace (npMin feature.values) (npMax feature.values) nb_bins).getD
      (nb_bins - 1) 0
    rw [linspace_last _ _ _ hnb]
    exact le_npMax feature.values s.2 hv
  obtain ⟨p, hp, hpv⟩ := binPreds_cover (binEdges1d feature nb_bins none) s.2
    (by rw [hlen]; exact hnb) hlo hhi
  have hcount : feature.values.countP p = (Tsd.restrict feature ep).values.countP p :=
    List.map_eq_map_iff.mp heq p hp
  have h1 : feature.values.countP p = feature.samples.countP (fun t => p t.2) := by
    show (feature.samples.map Prod.snd).countP p = _
    rw [List.countP_map]
    rfl
  have h2 : (Tsd.restrict feature ep).values.countP p
      = (feature.samples.filter (fun t => memEp ep t.1)).countP (fun t => p t.2) := by
    show ((feature.samples.filter (fun t => memEp ep t.1)).map Prod.snd).countP p = _
    rw [List.countP_map]
    rfl
  have hsplit := countP_filter_split (fun t : ℚ × ℚ => p t.2)
    (fun t : ℚ × ℚ => memEp ep t.1) feature.samples
  have hpos : 0 < (feature.samples.filter
      (fun t : ℚ × ℚ => !memEp ep t.1)).countP (fun t : ℚ × ℚ => p t.2) := by
    rw [List.countP_pos_iff]
    exact ⟨s, List.mem_filter.mpr ⟨hs, by simp [hsep]⟩, hpv⟩
  omega

unseal Nat.gcd Rat.add Rat.sub Rat.mul Rat.inv in
theorem occupancy_restriction_mismatch_witness :
    ((2 ≤ 2) ∧ (∃ s ∈ (⟨[(0, 0), (5, 1)], 1⟩ : Tsd).samples, memEp [(0, 1)] s.1 = false))
    ∧ (occupancy1d ⟨[(0, 0), (5, 1)], 1⟩ (binEdges1d ⟨[(0, 0), (5, 1)], 1⟩ 2 none)
        = histogram (Tsd.values ⟨[(0, 0), (5, 1)], 1⟩)
            (binEdges1d ⟨[(0, 0), (5, 1)], 1⟩ 2 none)
      ∧ miOccCounts ⟨[(0, 0), (5, 1)], 1⟩ [(0, 1)] (binEdges1d ⟨[(0, 0), (5, 1)], 1⟩ 2 none)
        = histogram (Tsd.values (Tsd.restrict ⟨[(0, 0), (5, 1)], 1⟩ [(0, 1)]))
            (binEdges1d ⟨[(0, 0), (5, 1)], 1⟩ 2 none)
      ∧ occupancy1d ⟨[(0, 0), (5, 1)], 1⟩ (binEdges1d ⟨[(0, 0), (5, 1)], 1⟩ 2 none)
        ≠ miOccCounts ⟨[(0, 0), (5, 1)], 1⟩ [(0, 1)]
            (binEdges1d ⟨[(0, 0), (5, 1)], 1⟩ 2 none)) :=
  ⟨⟨by decide, by decide⟩,
   occupancy_restriction_mismatch ⟨[(0, 0), (5, 1)], 1⟩ [(0, 1)] 2 (by decide) (by decide)⟩
